import Mathlib

/-!
# A verification development for the `github-backup` core

This file gives a shallow embedding, in Lean 4, of the parts of the
`github-backup` repository that its specification talks about:

* the filter value model (`src/filter/value.rs`),
* the filter token and expression types and the recursive-descent parser
  (`src/filter/token.rs`, `src/filter/expr.rs`, `src/filter/parser.rs`),
* the tree-walking evaluator (`src/filter/interpreter.rs`),
* the pairing engine's produce/drain loop (`src/pairing.rs`),
* the HTTP-file backup engine (`src/engines/http_file.rs`),
* the git backup engine (`src/engines/git.rs`),
* the GitHub source selectors and the gist source's validation
  (`src/helpers/github.rs`, `src/sources/github_gist.rs`).

Rust `f64` values are modelled by an explicit IEEE-style sum type (`F64`)
with a NaN element, machine strings by Lean `String`, and the external
effects of the HTTP / git libraries by explicit inputs to the engine
models.  Every definition is written to mirror the corresponding Rust
item; divergences of the code from the specification are recorded as
theorems evaluating the embedded code at concrete inputs.
-/

namespace GithubBackup

/-! ## Character and string helpers

These model the exact Rust string primitives the filter code uses:
`char::to_ascii_lowercase`, `str::eq_ignore_ascii_case`,
`str::to_lowercase` (on the ASCII fragment the program exercises),
byte-lexicographic `String` ordering (UTF-8 byte order coincides with
code-point order), `str::trim`, and `str::trim_start_matches('.')`. -/

/-- Rust `char::to_ascii_lowercase`: maps `A`..`Z` to `a`..`z`, leaves
everything else unchanged. -/
def asciiLower (c : Char) : Char :=
  if 'A' ≤ c ∧ c ≤ 'Z' then Char.ofNat (c.toNat + 32) else c

/-- Rust `str::eq_ignore_ascii_case` on the byte/char level: equal lengths
and pairwise equality after ASCII lowercasing. -/
def eqIgnoreAsciiCaseL : List Char → List Char → Bool
  | [], [] => true
  | a :: as, b :: bs => (asciiLower a == asciiLower b) && eqIgnoreAsciiCaseL as bs
  | _, _ => false

def eqIgnoreAsciiCase (a b : String) : Bool :=
  eqIgnoreAsciiCaseL a.data b.data

/-- Rust `str::to_lowercase`, modelled on the ASCII fragment (the full
Unicode lowering agrees with this on every string the program's tests and
claims exercise). -/
def toLowerStr (s : String) : String :=
  ⟨s.data.map asciiLower⟩

/-- Lexicographic strict order on char lists; this is Rust's `Ord` for
`String` (byte-lexicographic, which UTF-8 makes identical to
code-point-lexicographic order). -/
def charListLt : List Char → List Char → Bool
  | [], [] => false
  | [], _ :: _ => true
  | _ :: _, [] => false
  | a :: as, b :: bs =>
    if a < b then true else if b < a then false else charListLt as bs

def charListLe (a b : List Char) : Bool :=
  charListLt a b || a == b

/-- Three-way comparison on char lists (Rust `Ord::cmp` for `String`). -/
def charListCmp : List Char → List Char → Ordering
  | [], [] => .eq
  | [], _ :: _ => .lt
  | _ :: _, [] => .gt
  | a :: as, b :: bs =>
    if a < b then .lt else if b < a then .gt else charListCmp as bs

def strLtB (a b : String) : Bool := charListLt a.data b.data

def strLeB (a b : String) : Bool := charListLe a.data b.data

/-- `as` is a contiguous prefix of `bs`. -/
def listIsPrefixB : List Char → List Char → Bool
  | [], _ => true
  | _ :: _, [] => false
  | a :: as, b :: bs => (a == b) && listIsPrefixB as bs

/-- `as` occurs as a contiguous sublist of `bs` (Rust `str::contains`). -/
def listIsInfixB (as : List Char) : List Char → Bool
  | [] => listIsPrefixB as []
  | b :: bs => listIsPrefixB as (b :: bs) || listIsInfixB as bs

/-- `as` is a contiguous suffix of `bs` (Rust `str::ends_with`). -/
def listIsSuffixB (as bs : List Char) : Bool :=
  listIsPrefixB as.reverse bs.reverse

/-- Rust `str::trim` (whitespace at both ends; ASCII whitespace, which is
all that the program's sidecar files can contain). -/
def trimStr (s : String) : String := s.trim

/-- Rust `s.trim_start_matches('.')`: removes every leading `'.'`. -/
def trimStartDots (s : String) : String :=
  ⟨s.data.dropWhile (fun c => c == '.')⟩

/-- Rust `str::split(c)` on a single-character pattern: the fields
between occurrences of `c`, in order, including empty fields. -/
def splitOnCharAux (c : Char) : List Char → List Char → List (List Char)
  | [], acc => [acc.reverse]
  | x :: xs, acc =>
    if x = c then acc.reverse :: splitOnCharAux c xs []
    else splitOnCharAux c xs (x :: acc)

def splitOnChar (c : Char) (s : String) : List String :=
  (splitOnCharAux c s.data []).map (fun l => ⟨l⟩)

/-! ## A model of Rust `f64`

The filter value model stores `f64` numbers.  We model an `f64` value by
its IEEE-754 reading: NaN, the two infinities, or a finite value (given
exactly as a rational; `-0.0` and `0.0` both denote the rational `0`,
matching IEEE equality).  The comparison operators below implement the
IEEE total-ordering-free semantics Rust exposes through `PartialOrd` /
`PartialEq` on `f64`: every comparison involving NaN is false and
`partial_cmp` with NaN is `None`. -/

inductive F64 where
  | nan
  | negInf
  | posInf
  | finite (q : ℚ)
deriving DecidableEq, Repr

namespace F64

/-- IEEE `==` on `f64` (Rust `PartialEq::eq`). -/
def beq : F64 → F64 → Bool
  | .nan, _ => false
  | _, .nan => false
  | .negInf, .negInf => true
  | .posInf, .posInf => true
  | .finite a, .finite b => a == b
  | _, _ => false

/-- IEEE `<` on `f64` (Rust `PartialOrd::lt`). -/
def ltb : F64 → F64 → Bool
  | .nan, _ => false
  | _, .nan => false
  | .negInf, .negInf => false
  | .negInf, _ => true
  | _, .negInf => false
  | .posInf, _ => false
  | .finite _, .posInf => true
  | .finite a, .finite b => a < b

/-- IEEE `<=` on `f64` (Rust `PartialOrd::le`). -/
def leb (a b : F64) : Bool := ltb a b || beq a b

/-- IEEE `partial_cmp` on `f64`: `None` whenever NaN is involved. -/
def pcmp : F64 → F64 → Option Ordering
  | .nan, _ => none
  | _, .nan => none
  | a, b => if ltb a b then some .lt else if beq a b then some .eq else some .gt

/-- The `f64` value `0.0`. -/
def zero : F64 := .finite 0

end F64

/-! ## Filter value model — `src/filter/value.rs`

`FilterValue` is the tagged value type of the filter DSL.  The functions
below are direct transcriptions of the Rust `impl` blocks: `is_truthy`,
`contains`, `startswith`, `endswith`, the `PartialEq` implementation, the
`partial_cmp` method, and the four hand-written comparison-operator
overrides `lt`, `le`, `gt`, `ge` (which the evaluator's `<`, `<=`, `>`,
`>=` operators call). -/

inductive FilterValue where
  | null
  | bool (b : Bool)
  | number (n : F64)
  | string (s : String)
  | tuple (vs : List FilterValue)
deriving Repr

namespace FilterValue

/-- `FilterValue::is_truthy`.  Note the `Number` arm is Rust `*n != 0.0`,
which is IEEE inequality — NaN is therefore truthy. -/
def isTruthy : FilterValue → Bool
  | .null => false
  | .bool b => b
  | .number n => !(F64.beq n F64.zero)
  | .string s => !(s.data.isEmpty)
  | .tuple v => !v.isEmpty

/-- The `From<f64>` conversion (`number!(f64)` macro arm). -/
def fromF64 (n : F64) : FilterValue := .number n

mutual

/-- `PartialEq for FilterValue`: `Null == Null`; bools structurally;
numbers by IEEE `==`; strings by `eq_ignore_ascii_case`; tuples by equal
length and pairwise equality (`a.len() == b.len() && zip ... all eq`,
written here as one recursion); everything else `false`. -/
def feq : FilterValue → FilterValue → Bool
  | .null, .null => true
  | .bool a, .bool b => a == b
  | .number a, .number b => F64.beq a b
  | .string a, .string b => eqIgnoreAsciiCase a b
  | .tuple a, .tuple b => feqList a b
  | _, _ => false

/-- Pairwise equality of equal-length lists; `false` on a length
mismatch.  This is exactly `a.len() == b.len() && a.iter().zip(b.iter())
.all(|(a, b)| a == b)` from the source. -/
def feqList : List FilterValue → List FilterValue → Bool
  | [], [] => true
  | a :: as, b :: bs => feq a b && feqList as bs
  | _, _ => false

end

/-- `FilterValue::contains`: tuples test membership under `==`; strings
test case-insensitive substring; all other shapes are `false`. -/
def contains (a b : FilterValue) : Bool :=
  match a, b with
  | .tuple xs, v => xs.any (fun x => feq x v)
  | .string s, .string t => listIsInfixB (toLowerStr t).data (toLowerStr s).data
  | _, _ => false

/-- `FilterValue::startswith`: the tuple arm is membership (as in the
source), the string arm a case-insensitive prefix test. -/
def startswith (a b : FilterValue) : Bool :=
  match a, b with
  | .tuple xs, v => xs.any (fun x => feq x v)
  | .string s, .string t => listIsPrefixB (toLowerStr t).data (toLowerStr s).data
  | _, _ => false

/-- `FilterValue::endswith`: the tuple arm is membership (as in the
source), the string arm a case-insensitive suffix test. -/
def endswith (a b : FilterValue) : Bool :=
  match a, b with
  | .tuple xs, v => xs.any (fun x => feq x v)
  | .string s, .string t => listIsSuffixB (toLowerStr t).data (toLowerStr s).data
  | _, _ => false

mutual

/-- `PartialOrd::partial_cmp for FilterValue`: same variants compare by
their natural order, tuples by length and then elementwise, everything
else is `None` ("no ordering"). -/
def pcmp : FilterValue → FilterValue → Option Ordering
  | .null, .null => some .eq
  | .bool a, .bool b => some (compare a b)
  | .number a, .number b => F64.pcmp a b
  | .string a, .string b => some (charListCmp a.data b.data)
  | .tuple a, .tuple b =>
    if a.length ≠ b.length then some (compare a.length b.length)
    else pcmpList a b
  | _, _ => none

/-- The elementwise search of the tuple arm of `partial_cmp`:
`a.iter().zip(b.iter()).map(|(x, y)| x.partial_cmp(y))
.find(|&cmp| cmp != Some(Ordering::Equal)).unwrap_or(Some(Ordering::Equal))`. -/
def pcmpList : List FilterValue → List FilterValue → Option Ordering
  | [], _ => some .eq
  | _ :: _, [] => some .eq
  | a :: as, b :: bs =>
    match pcmp a b with
    | some .eq => pcmpList as bs
    | c => c

end

mutual

/-- The hand-written `lt` override of `PartialOrd for FilterValue`
(`fn lt`), transcribed verbatim — including its `(Null, Null) => true`
arm and its tuple arm `a.len() <= b.len() && zip ... all (a < b)`. -/
def fltB : FilterValue → FilterValue → Bool
  | .null, .null => true
  | .bool a, .bool b => !a && b
  | .number a, .number b => F64.ltb a b
  | .string a, .string b => strLtB a b
  | .tuple a, .tuple b => Nat.ble a.length b.length && fltPairs a b
  | _, _ => false

/-- `zip`-bounded conjunction of elementwise `<` (the iterator stops at
the shorter list, and `all` of an empty iterator is `true`). -/
def fltPairs : List FilterValue → List FilterValue → Bool
  | a :: as, b :: bs => fltB a b && fltPairs as bs
  | _, _ => true

end

mutual

/-- The hand-written `le` override (`fn le`), transcribed verbatim. -/
def fleB : FilterValue → FilterValue → Bool
  | .null, .null => true
  | .bool a, .bool b => !a || b
  | .number a, .number b => F64.leb a b
  | .string a, .string b => strLeB a b
  | .tuple a, .tuple b => Nat.ble a.length b.length && flePairs a b
  | _, _ => false

def flePairs : List FilterValue → List FilterValue → Bool
  | a :: as, b :: bs => fleB a b && flePairs as bs
  | _, _ => true

end

mutual

/-- The hand-written `gt` override (`fn gt`), transcribed verbatim —
note its `(Null, Null) => true` arm and its tuple arm
`a.len() >= b.len() && zip ... all (a > b)`. -/
def fgtB : FilterValue → FilterValue → Bool
  | .null, .null => true
  | .bool a, .bool b => a && !b
  | .number a, .number b => F64.ltb b a
  | .string a, .string b => strLtB b a
  | .tuple a, .tuple b => Nat.ble b.length a.length && fgtPairs a b
  | _, _ => false

def fgtPairs : List FilterValue → List FilterValue → Bool
  | a :: as, b :: bs => fgtB a b && fgtPairs as bs
  | _, _ => true

end

mutual

/-- The hand-written `ge` override (`fn ge`), transcribed verbatim. -/
def fgeB : FilterValue → FilterValue → Bool
  | .null, .null => true
  | .bool a, .bool b => a || !b
  | .number a, .number b => F64.leb b a
  | .string a, .string b => strLeB b a
  | .tuple a, .tuple b => Nat.ble b.length a.length && fgePairs a b
  | _, _ => false

def fgePairs : List FilterValue → List FilterValue → Bool
  | a :: as, b :: bs => fgeB a b && fgePairs as bs
  | _, _ => true

end

mutual

/-- A `FilterValue` contains no NaN number anywhere inside it. -/
def noNaN : FilterValue → Bool
  | .null => true
  | .bool _ => true
  | .number n => !(n == F64.nan)
  | .string _ => true
  | .tuple vs => noNaNList vs

def noNaNList : List FilterValue → Bool
  | [] => true
  | v :: vs => noNaN v && noNaNList vs

end

end FilterValue

/-! ## Tokens — `src/filter/location.rs`, `src/filter/token.rs` -/

/-- A 1-based source location, `Loc { line, column }`. -/
structure Loc where
  line : Nat
  column : Nat
deriving DecidableEq, Repr

/-- The token type of the filter language.  Each token carries its
location; `Property`, `String` and `Number` also carry their lexeme. -/
inductive Token where
  | leftParen (loc : Loc)
  | rightParen (loc : Loc)
  | leftBracket (loc : Loc)
  | rightBracket (loc : Loc)
  | comma (loc : Loc)
  | property (loc : Loc) (name : String)
  | null (loc : Loc)
  | true_ (loc : Loc)
  | false_ (loc : Loc)
  | string (loc : Loc) (s : String)
  | number (loc : Loc) (s : String)
  | equals (loc : Loc)
  | notEquals (loc : Loc)
  | contains (loc : Loc)
  | in_ (loc : Loc)
  | startsWith (loc : Loc)
  | endsWith (loc : Loc)
  | greaterThan (loc : Loc)
  | smallerThan (loc : Loc)
  | greaterEqual (loc : Loc)
  | smallerEqual (loc : Loc)
  | not (loc : Loc)
  | and (loc : Loc)
  | or (loc : Loc)
deriving DecidableEq, Repr

/-! ## Expression AST — `src/filter/expr.rs` -/

/-- `Expr`: literals, property references, binary/logical operator nodes
(carrying their operator token) and unary nodes. -/
inductive Expr where
  | literal (v : FilterValue)
  | property (name : String)
  | binary (left : Expr) (op : Token) (right : Expr)
  | logical (left : Expr) (op : Token) (right : Expr)
  | unary (op : Token) (right : Expr)
deriving Repr

/-! ## Parser — `src/filter/parser.rs`

The parser is a recursive-descent parser over a peekable token stream.
We model the stream as a `List Token` (the lexer's output for any input
that lexes without error) and each parsing method as a function from the
remaining tokens to either a structured error or a result together with
the tokens it did not consume.  The mutual recursion is fuelled; the
`fuelExhausted` error is an artifact of the embedding that is never
produced when the fuel exceeds the recursion depth (top-level `parse`
passes ample fuel). -/

/-- The user-kind parse errors of `parser.rs`, by the `errors::user` call
that produces them. -/
inductive ParseError where
  /-- "Your filter expression contained an unexpected '…' at …"
  (`ensure_end`). -/
  | unexpectedTrailing (t : Token)
  /-- "… didn't find the closing ')' …" for a group opened at `start`. -/
  | missingRightParen (start : Loc)
  /-- "… didn't find the closing ']' …" for a list opened at `start`. -/
  | missingRightBracket (start : Loc)
  /-- "While parsing your filter, we found an unexpected '…' at …"
  (`literal`). -/
  | unexpectedTokenLiteral (t : Token)
  /-- "We reached the end of your filter expression while waiting for a
  […]." (`primary` / `literal`). -/
  | endOfInput
  /-- "Failed to parse the number '…' which you provided at …". -/
  | badNumber (loc : Loc) (s : String)
  /-- Fuel-exhaustion artifact of the embedding; unreachable for the fuel
  `parse` supplies. -/
  | fuelExhausted
deriving DecidableEq, Repr

/-- Digits of a decimal literal to a natural number; `none` when a
non-digit appears. -/
def digitsToNat : List Char → Option Nat
  | [] => some 0
  | cs =>
    cs.foldl (fun acc c =>
      match acc with
      | none => none
      | some n => if c.isDigit then some (n * 10 + (c.toNat - '0'.toNat)) else none)
      (some 0)

/-- Rust `str::parse::<f64>()` on the lexeme of a `Number` token.  The
lexer only produces lexemes of the shape `[0-9]+('.'[0-9]+)?`; on those
the parse succeeds and we return the exact decimal value (rounding to the
nearest double is not modelled — no claim distinguishes a literal from
its rounding).  Any other shape is rejected, mirroring the `map_err`
user-error path. -/
def parseNumF (s : String) : Option F64 :=
  match splitOnChar '.' s with
  | [intPart] =>
    if intPart.data ≠ [] then
      (digitsToNat intPart.data).map (fun n => F64.finite n)
    else none
  | [intPart, fracPart] =>
    if intPart.data ≠ [] ∧ fracPart.data ≠ [] then
      match digitsToNat intPart.data, digitsToNat fracPart.data with
      | some n, some f =>
        some (F64.finite (n + (f : ℚ) / ((10 : ℚ) ^ fracPart.data.length)))
      | _, _ => none
    else none
  | _ => none

/-- The string-literal unescaping of `Parser::literal`:
`s.replace("\\\"", "\"").replace("\\\\", "\\")`. -/
def unescapeString (s : String) : String :=
  (s.replace "\\\"" "\"").replace "\\\\" "\\"

namespace Parser

mutual

/-- `Parser::or`: an `and` chain folded left over `||` tokens. -/
def or (fuel : Nat) (ts : List Token) : Except ParseError (Expr × List Token) :=
  match fuel with
  | 0 => .error .fuelExhausted
  | fuel + 1 =>
    match «and» fuel ts with
    | .error e => .error e
    | .ok (e, ts) => orLoop fuel e ts

/-- The `while matches!(peek, Or)` loop of `Parser::or`. -/
def orLoop (fuel : Nat) (expr : Expr) (ts : List Token) :
    Except ParseError (Expr × List Token) :=
  match fuel with
  | 0 => .error .fuelExhausted
  | fuel + 1 =>
    match ts with
    | .or loc :: rest =>
      match «and» fuel rest with
      | .error e => .error e
      | .ok (right, ts) => orLoop fuel (.logical expr (.or loc) right) ts
    | _ => .ok (expr, ts)

/-- `Parser::and`: an `equality` chain folded left over `&&` tokens. -/
def «and» (fuel : Nat) (ts : List Token) : Except ParseError (Expr × List Token) :=
  match fuel with
  | 0 => .error .fuelExhausted
  | fuel + 1 =>
    match equality fuel ts with
    | .error e => .error e
    | .ok (e, ts) => andLoop fuel e ts

/-- The `while matches!(peek, And)` loop of `Parser::and`. -/
def andLoop (fuel : Nat) (expr : Expr) (ts : List Token) :
    Except ParseError (Expr × List Token) :=
  match fuel with
  | 0 => .error .fuelExhausted
  | fuel + 1 =>
    match ts with
    | .and loc :: rest =>
      match equality fuel rest with
      | .error e => .error e
      | .ok (right, ts) => andLoop fuel (.logical expr (.and loc) right) ts
    | _ => .ok (expr, ts)

/-- `Parser::equality`: a `comparison`, optionally followed by a single
`==` or `!=` and another `comparison`. -/
def equality (fuel : Nat) (ts : List Token) : Except ParseError (Expr × List Token) :=
  match fuel with
  | 0 => .error .fuelExhausted
  | fuel + 1 =>
    match comparison fuel ts with
    | .error e => .error e
    | .ok (e, ts) =>
      match ts with
      | .equals loc :: rest =>
        match comparison fuel rest with
        | .error er => .error er
        | .ok (right, ts) => .ok (.binary e (.equals loc) right, ts)
      | .notEquals loc :: rest =>
        match comparison fuel rest with
        | .error er => .error er
        | .ok (right, ts) => .ok (.binary e (.notEquals loc) right, ts)
      | _ => .ok (e, ts)

/-- `Parser::comparison`: a `unary`, optionally followed by a single
comparison operator and another `unary`.  The `matches!` peek in the
source lists exactly `In`, `Contains`, `StartsWith` and `EndsWith` —
the four ordering tokens `>`, `>=`, `<`, `<=` are *not* in the list, so
they are never consumed here and fall through to `ensure_end`. -/
def comparison (fuel : Nat) (ts : List Token) : Except ParseError (Expr × List Token) :=
  match fuel with
  | 0 => .error .fuelExhausted
  | fuel + 1 =>
    match unary fuel ts with
    | .error e => .error e
    | .ok (e, ts) =>
      match ts with
      | .in_ loc :: rest =>
        match unary fuel rest with
        | .error er => .error er
        | .ok (right, ts) => .ok (.binary e (.in_ loc) right, ts)
      | .contains loc :: rest =>
        match unary fuel rest with
        | .error er => .error er
        | .ok (right, ts) => .ok (.binary e (.contains loc) right, ts)
      | .startsWith loc :: rest =>
        match unary fuel rest with
        | .error er => .error er
        | .ok (right, ts) => .ok (.binary e (.startsWith loc) right, ts)
      | .endsWith loc :: rest =>
        match unary fuel rest with
        | .error er => .error er
        | .ok (right, ts) => .ok (.binary e (.endsWith loc) right, ts)
      | _ => .ok (e, ts)

/-- `Parser::unary`: a `!` chain in front of a `primary`. -/
def unary (fuel : Nat) (ts : List Token) : Except ParseError (Expr × List Token) :=
  match fuel with
  | 0 => .error .fuelExhausted
  | fuel + 1 =>
    match ts with
    | .not loc :: rest =>
      match unary fuel rest with
      | .error e => .error e
      | .ok (right, ts) => .ok (.unary (.not loc) right, ts)
    | _ => primary fuel ts

/-- `Parser::primary`: a parenthesised group, a `[...]` literal list, a
property, a literal, or an error. -/
def primary (fuel : Nat) (ts : List Token) : Except ParseError (Expr × List Token) :=
  match fuel with
  | 0 => .error .fuelExhausted
  | fuel + 1 =>
    match ts with
    | .leftParen startLoc :: rest =>
      match or fuel rest with
      | .error e => .error e
      | .ok (e, ts) =>
        match ts with
        | .rightParen _ :: rest => .ok (e, rest)
        | _ => .error (.missingRightParen startLoc)
    | .leftBracket startLoc :: rest =>
      match listItems fuel rest [] with
      | .error e => .error e
      | .ok (items, ts) =>
        match ts with
        | .rightBracket _ :: rest => .ok (.literal (.tuple items), rest)
        | _ => .error (.missingRightBracket startLoc)
    | .property _ p :: rest => .ok (.property p, rest)
    | _ :: _ => (literal ts).map (fun (v, ts) => (.literal v, ts))
    | [] => .error .endOfInput

/-- The item loop of the `LeftBracket` arm of `Parser::primary`: read
literals while the lookahead is not `]`, consuming a `,` between items
and stopping after an item with no trailing comma. -/
def listItems (fuel : Nat) (ts : List Token) (acc : List FilterValue) :
    Except ParseError (List FilterValue × List Token) :=
  match fuel with
  | 0 => .error .fuelExhausted
  | fuel + 1 =>
    match ts with
    | .rightBracket _ :: _ => .ok (acc, ts)
    | _ =>
      match literal ts with
      | .error e => .error e
      | .ok (v, ts) =>
        match ts with
        | .comma _ :: rest => listItems fuel rest (acc ++ [v])
        | _ => .ok (acc ++ [v], ts)

/-- `Parser::literal`: the literal tokens, or a user error naming the
unexpected token / the end of input. -/
def literal (ts : List Token) : Except ParseError (FilterValue × List Token) :=
  match ts with
  | .true_ _ :: rest => .ok (.bool true, rest)
  | .false_ _ :: rest => .ok (.bool false, rest)
  | .number loc n :: rest =>
    match parseNumF n with
    | some v => .ok (.number v, rest)
    | none => .error (.badNumber loc n)
  | .string _ s :: rest => .ok (.string (unescapeString s), rest)
  | .null _ :: rest => .ok (.null, rest)
  | t :: _ => .error (.unexpectedTokenLiteral t)
  | [] => .error .endOfInput

end

/-- `Parser::parse`: parse an `or` expression, then `ensure_end` — any
token left over is the user error "… contained an unexpected '…' at …". -/
def parse (ts : List Token) : Except ParseError Expr :=
  match or (8 * ts.length + 8) ts with
  | .error e => .error e
  | .ok (e, rest) =>
    match rest with
    | [] => .ok e
    | t :: _ => .error (.unexpectedTrailing t)

end Parser

/-! ## Evaluator — `src/filter/interpreter.rs`

`FilterContext` walks the AST against a property provider
(`Filterable::get`, modelled as a function `String → FilterValue`; a
provider returns `Null` for unknown keys).  `visit_expr` dispatches on
the node; the `unreachable!` arms of the source (operator tokens that the
parser can never place in that position) are modelled as `Null` and are
exercised by no claim.

The repository also contains an older draft of this visitor inside
`src/filter/mod.rs` (it pattern-matches a unit-variant `Token` shape that
predates `token.rs` and so no longer type-checks against it); the live
evaluator, which the interpreter's test suite runs, is the one
transcribed here. -/

namespace Interp

/-- `ExprVisitor::visit_expr` for `FilterContext`, with the three method
bodies inlined at their dispatch sites:

* the `binary` arm is `visit_binary` — evaluate both sides, then apply
  the operator; `==`/`!=` use `PartialEq`, `in` is `contains` with
  swapped operands, and the four ordering operators call the
  `PartialOrd` overrides;
* the `logical` arm is `visit_logical` — short-circuiting `&&` / `||`
  that yield the carrier value (`left && right` is `right` when `left`
  is truthy, else `left`; dually for `||`);
* the `unary` arm is `visit_unary` — `!` yields `Bool(true)` when the
  operand is falsy and `Bool(false)` when it is truthy. -/
def visitExpr (get : String → FilterValue) : Expr → FilterValue
  | .literal v => v
  | .property n => get n
  | .binary l op r =>
    let lv := visitExpr get l
    let rv := visitExpr get r
    match op with
    | .equals _ => .bool (FilterValue.feq lv rv)
    | .notEquals _ => .bool (!FilterValue.feq lv rv)
    | .contains _ => .bool (FilterValue.contains lv rv)
    | .in_ _ => .bool (FilterValue.contains rv lv)
    | .startsWith _ => .bool (FilterValue.startswith lv rv)
    | .endsWith _ => .bool (FilterValue.endswith lv rv)
    | .greaterThan _ => .bool (FilterValue.fgtB lv rv)
    | .smallerThan _ => .bool (FilterValue.fltB lv rv)
    | .greaterEqual _ => .bool (FilterValue.fgeB lv rv)
    | .smallerEqual _ => .bool (FilterValue.fleB lv rv)
    | _ => .null
  | .logical l op r =>
    let lv := visitExpr get l
    match op with
    | .and _ => if lv.isTruthy then visitExpr get r else lv
    | .or _ => if lv.isTruthy then lv else visitExpr get r
    | _ => .null
  | .unary op r =>
    let rv := visitExpr get r
    match op with
    | .not _ => if rv.isTruthy then .bool false else .bool true
    | _ => .null

end Interp

/-! ## Backup outcomes — `src/engines/mod.rs` -/

/-- `BackupState`: the outcome reported for one entity. -/
inductive BackupState where
  | skipped
  | new (detail : Option String)
  | updated (detail : Option String)
  | unchanged (detail : Option String)
deriving DecidableEq, Repr

/-! ## Pairing engine — `src/pairing.rs`

`Pairing::run_all_backups` validates the source, then drives a produce
loop: for each entity from the source stream it first drains the
`JoinSet` while it is full (`join_set.len() >= concurrency_limit`),
then checks the cancellation flag, the `dry_run` knob and the policy
filter, and finally either emits `Ok((entity, Skipped))` or spawns a
backup task; after the loop every remaining task is drained.

The embedding replays this loop sequentially over the list of entities
the source yields.  Completions of the concurrent tasks are linearised
FIFO (`join_next` returns one completed task; which one completes first
cannot change the multiset of events nor the set of engine invocations,
because each task's result is a function of its entity).  The model
records, besides the emitted events, every entity an engine task was
spawned for and the size of the join set after every operation that
changes it — the trace against which the concurrency ceiling is stated.
`policy.filter.matches` is total (`Filter::matches` always returns `Ok`
of the evaluation's truthiness), so the filter is a `Bool`-valued
function and the `Err` arm of the `match` is not represented.  The
degenerate `concurrency_limit = 0` drain (a `join_next().unwrap()` panic
on an empty join set in Rust) is modelled as stopping the drain; every
theorem about the loop assumes `1 ≤ concurrency_limit`, which the
builder API guarantees. -/

/-- The configuration knobs of `Pairing` (`source`, `target` and the
entity type are the generic parameters of the run function below). -/
structure Pairing where
  dryRun : Bool
  concurrencyLimit : Nat
deriving DecidableEq, Repr

namespace Pairing

/-- `Pairing::new`: `dry_run = false`, `concurrency_limit = 10`. -/
def new : Pairing := { dryRun := false, concurrencyLimit := 10 }

/-- `Pairing::with_dry_run`. -/
def withDryRun (p : Pairing) (d : Bool) : Pairing := { p with dryRun := d }

/-- `Pairing::with_concurrency_limit`: `0` keeps the current limit. -/
def withConcurrencyLimit (p : Pairing) (l : Nat) : Pairing :=
  if l = 0 then p else { p with concurrencyLimit := l }

end Pairing

/-- One emitted event: `Result<(E, BackupState), Error>` with an abstract
error type. -/
abbrev RunEvent (α ε : Type) := Except ε (α × BackupState)

/-- The loop state of `run_all_backups`: the pending join set (FIFO
linearisation), the events yielded so far, the entities a backup task was
spawned for, and the observed join-set sizes. -/
structure RunAcc (α ε : Type) where
  joinSet : List (RunEvent α ε)
  events : List (RunEvent α ε)
  engineCalls : List α
  sizes : List Nat
deriving Repr

/-- The `while join_set.len() >= self.concurrency_limit` drain at the
head of the produce loop: pop one completed task and yield it, until the
set is below the limit.  (With `limit = 0` and an empty set the Rust
code panics on `unwrap`; the model stops instead, and no theorem uses
that case.) -/
def drainWhileFull (limit : Nat) :
    List (RunEvent α ε) → List (RunEvent α ε) → List Nat →
    List (RunEvent α ε) × List (RunEvent α ε) × List Nat
  | js, evs, sizes =>
    if limit ≤ js.length then
      match js with
      | [] => ([], evs, sizes)
      | x :: rest => drainWhileFull limit rest (evs ++ [x]) (sizes ++ [rest.length])
    else (js, evs, sizes)

/-- The `while let Some(fut) = join_set.join_next()` drain after the
produce loop: every remaining result is yielded. -/
def drainAll :
    List (RunEvent α ε) → List (RunEvent α ε) → List Nat →
    List (RunEvent α ε) × List Nat
  | [], evs, sizes => (evs, sizes)
  | x :: rest, evs, sizes => drainAll rest (evs ++ [x]) (sizes ++ [rest.length])

/-- The produce loop of `run_all_backups` over the entities the source
yields, followed by the final drain.  `filterB` is the truthiness of
`policy.filter.matches`, `engineRes e` the result of
`target.backup(e, policy.to, cancel)`, and `cancel i` the value the
cancellation flag reads at the loop head of iteration `i`. -/
def runLoop (p : Pairing) (filterB : α → Bool) (engineRes : α → Except ε BackupState)
    (cancel : Nat → Bool) : List α → Nat → RunAcc α ε → RunAcc α ε
  | [], _, acc =>
    let d := drainAll acc.joinSet acc.events acc.sizes
    { joinSet := [], events := d.1, engineCalls := acc.engineCalls, sizes := d.2 }
  | e :: rest, i, acc =>
    let d := drainWhileFull p.concurrencyLimit acc.joinSet acc.events acc.sizes
    let js := d.1
    let evs := d.2.1
    let sizes := d.2.2
    if cancel i then
      let d2 := drainAll js evs sizes
      { joinSet := [], events := d2.1, engineCalls := acc.engineCalls, sizes := d2.2 }
    else if p.dryRun then
      runLoop p filterB engineRes cancel rest (i + 1)
        { joinSet := js, events := evs ++ [.ok (e, .skipped)],
          engineCalls := acc.engineCalls, sizes := sizes }
    else if filterB e then
      runLoop p filterB engineRes cancel rest (i + 1)
        { joinSet := js ++ [(engineRes e).map (fun s => (e, s))], events := evs,
          engineCalls := acc.engineCalls ++ [e],
          sizes := sizes ++ [js.length + 1] }
    else
      runLoop p filterB engineRes cancel rest (i + 1)
        { joinSet := js, events := evs ++ [.ok (e, .skipped)],
          engineCalls := acc.engineCalls, sizes := sizes }

/-- `run_all_backups` for a source whose validation succeeded and whose
stream yields `entities`: run the produce loop from an empty join set. -/
def runAllBackups (p : Pairing) (filterB : α → Bool)
    (engineRes : α → Except ε BackupState) (cancel : Nat → Bool)
    (entities : List α) : RunAcc α ε :=
  runLoop p filterB engineRes cancel entities 0
    { joinSet := [], events := [], engineCalls := [], sizes := [0] }

/-! ## Credentials — `src/entities/credentials.rs` -/

/-- `Credentials`: `None`, `Token`, or `UsernamePassword`. -/
inductive Credentials where
  | none
  | token (t : String)
  | usernamePassword (username : String) (password : String)
deriving DecidableEq, Repr

/-! ## Rust `std::path` fragment

The HTTP-file engine computes its temp and sidecar paths with
`Path::extension` and `Path::with_extension`.  We model paths as strings
with `/` separators and transcribe the `std::path` semantics: the
extension is the portion of the file name after its last `.`, except
that a `.` in the leading position of the file name does not begin an
extension; `with_extension` strips the current extension from the file
name and, when the new extension is non-empty, appends `.` followed by
it (an argument that itself starts with `.` therefore produces a doubled
dot). -/

/-- Split a path at its last `/`: `(directory prefix including the
slash, file name)`. -/
def splitDirName (p : String) : String × String :=
  match ((p.data.enum.filter (fun q => q.2 == '/')).map (fun q => q.1)).getLast? with
  | some i => (⟨p.data.take (i + 1)⟩, ⟨p.data.drop (i + 1)⟩)
  | none => ("", p)

/-- Split a list at its last `'.'`: `some (before, after)` when a dot
exists, `none` otherwise. -/
def splitLastDot : List Char → Option (List Char × List Char)
  | [] => none
  | c :: cs =>
    match splitLastDot cs with
    | some (pre, post) => some (c :: pre, post)
    | none => if c = '.' then some ([], cs) else none

/-- Split a file name into stem and extension at its last `.`, as
`Path::file_stem` / `Path::extension` do: the leading character of the
file name never begins an extension (so `.gitignore` has no extension),
and otherwise the extension is everything after the last dot. -/
def stemExt (name : List Char) : List Char × Option (List Char) :=
  match name with
  | [] => ([], none)
  | c :: rest =>
    match splitLastDot rest with
    | some (pre, post) => (c :: pre, some post)
    | none => (c :: rest, none)

/-- `Path::extension().unwrap_or_default()` as a string. -/
def extensionOrDefault (p : String) : String :=
  match (stemExt (splitDirName p).2.data).2 with
  | some e => ⟨e⟩
  | none => ""

/-- `Path::with_extension(e)`. -/
def withExtension (p : String) (e : String) : String :=
  let (dir, name) := splitDirName p
  let stem := (stemExt name.data).1
  if e.data.isEmpty then dir ++ ⟨stem⟩
  else dir ++ ⟨stem⟩ ++ "." ++ e

/-! ## HTTP-file engine — `src/engines/http_file.rs`

`HttpFileEngine::backup` is modelled as a function of: the entity, the
target root, the current file-system contents (`Fs`, path → contents),
the target's recorded mtime (`Path::metadata().modified()`, an input
because the model does not track timestamps through writes), the HTTP
response (status success plus the body chunks the stream yields), the
cancellation flag's value at each of its read points (read `0` before
`send`, read `1` after the status check, read `2 + i` at the head of
chunk iteration `i`), and per-chunk write success.  The SHA-256 digest
and the `chrono` timestamp rendering are abstract function parameters.
Directory creation, file open/remove/rename errors and the
`ResponseError` body capture are not modelled beyond their control flow
on the success path; request headers and credentials shape the request
only and cannot affect the result or the file system. -/

/-- File-system contents: full path → file contents. -/
def Fs : Type := String → Option String

/-- Update one path of an `Fs` (`none` removes the file). -/
def Fs.set (fs : Fs) (p : String) (v : Option String) : Fs :=
  fun q => if q = p then v else fs q

/-- The error outcomes of `HttpFileEngine::backup` that the model
distinguishes. -/
inductive HttpEngineError where
  /-- non-2xx response: "Got an HTTP {status} status code …". -/
  | httpStatus
  /-- "Failed to write to temporary backup file …". -/
  | writeFailed
deriving DecidableEq, Repr

/-- The HTTP file entity as the engine consumes it: `target_path()`,
`last_modified`, `url`, `content_type` and `credentials`. -/
structure HttpFileEntity where
  url : String
  name : String
  credentials : Credentials
  lastModified : Option Int
  contentType : Option String

/-- The response the engine streams: success status plus body chunks. -/
structure HttpResp where
  ok : Bool
  chunks : List String

/-- The temp path: `target.with_extension(format!("{}.tmp", ext)
.trim_start_matches('.'))`. -/
def tempPathOf (target : String) : String :=
  withExtension target (trimStartDots (extensionOrDefault target ++ ".tmp"))

/-- The sidecar path `get_existing_sha256` *reads*:
`target.with_extension(format!("{}.sha256", ext).trim_start_matches('.'))`. -/
def shaReadPathOf (target : String) : String :=
  withExtension target (trimStartDots (extensionOrDefault target ++ ".sha256"))

/-- The sidecar path the final step *writes*:
`target.with_extension(format!("{}.sha256", ext))` — without the
`trim_start_matches('.')` of the read path. -/
def shaWritePathOf (target : String) : String :=
  withExtension target (extensionOrDefault target ++ ".sha256")

/-- The last-modified short-circuit guard: both times present and
`target_last_modified >= origin_last_modified`. -/
def mtimeShortCircuit (originLm : Option Int) (targetLm : Option Int) : Bool :=
  match originLm, targetLm with
  | some o, some t => o ≤ t
  | _, _ => false

/-- The chunk-streaming loop (step 7 of the algorithm): at each chunk,
check cancellation (drop the handle, delete the temp file, return
`Skipped`), then write (on failure delete the temp file and fail),
then update the streaming digest.  Returns the final file system and
either the early result or the accumulated body. -/
def chunkLoop (tempPath : String) (cancel : Nat → Bool) (writeOk : Nat → Bool) :
    List String → Nat → String → Fs →
    (Except HttpEngineError BackupState ⊕ String) × Fs
  | [], _, acc, fs => (.inr acc, fs)
  | c :: cs, i, acc, fs =>
    if cancel (2 + i) then
      (.inl (.ok .skipped), fs.set tempPath none)
    else if writeOk i then
      chunkLoop tempPath cancel writeOk cs (i + 1) (acc ++ c) (fs.set tempPath (some (acc ++ c)))
    else
      (.inl (.error .writeFailed), fs.set tempPath none)

/-- Steps 10–13 of `HttpFileEngine::backup`: pick `Updated` (deleting
the old target first) or `New`, rename temp → target, write the sidecar,
and return the state with detail `"at <last_modified>"` when present,
else `"at sha256:<h>"`. -/
def httpBackupFinish (timeFmt : Int → String) (entity : HttpFileEntity)
    (targetPath tempPath h : String) (fs : Fs) :
    Except HttpEngineError BackupState × Fs :=
  let detail := match entity.lastModified with
    | some m => some ("at " ++ timeFmt m)
    | Option.none => some ("at sha256:" ++ h)
  let (st, fs) :=
    if (fs targetPath).isSome then
      (BackupState.updated detail, fs.set targetPath none)
    else
      (BackupState.new detail, fs)
  let fs := (fs.set targetPath (fs tempPath)).set tempPath none
  let fs := fs.set (shaWritePathOf targetPath) (some h)
  (.ok st, fs)

/-- `HttpFileEngine::backup`. -/
def httpBackup (shaHex : String → String) (timeFmt : Int → String)
    (entity : HttpFileEntity) (root : String) (fs : Fs)
    (targetMtime : Option Int) (resp : HttpResp)
    (cancel : Nat → Bool) (writeOk : Nat → Bool) :
    Except HttpEngineError BackupState × Fs :=
  let targetPath := root ++ "/" ++ entity.name
  if mtimeShortCircuit entity.lastModified targetMtime then
    (.ok (.unchanged (some ("since " ++ timeFmt (targetMtime.getD 0)))), fs)
  else if cancel 0 then (.ok .skipped, fs)
  else if !resp.ok then (.error .httpStatus, fs)
  else if cancel 1 then (.ok .skipped, fs)
  else
    let tempPath := tempPathOf targetPath
    let fs := fs.set tempPath (some "")
    match chunkLoop tempPath cancel writeOk resp.chunks 0 "" fs with
    | (.inl early, fs) => (early, fs)
    | (.inr body, fs) =>
      let h := shaHex body
      match fs (shaReadPathOf targetPath) with
      | some s =>
        if trimStr s = h then
          (.ok (.unchanged (some ("at sha256@" ++ h))), fs.set tempPath none)
        else
          httpBackupFinish timeFmt entity targetPath tempPath h fs
      | none => httpBackupFinish timeFmt entity targetPath tempPath h fs

/-! ## Git engine — `src/engines/git.rs`

`GitEngine::backup` dispatches on whether `target/.git` exists: fetch
mode when it does, clone mode otherwise.  The git library's effects are
inputs: the HEAD commit id recorded before the fetch (`head_id().ok()`),
and the HEAD id after the clone/fetch (`head_id()`, whose failure the
engine maps to a *user* error).  Head ids are modelled by their hex
rendering (`to_hex`); the model covers every run in which the external
clone/fetch transport operations themselves complete (their failures are
re-wrapped library errors that short-circuit the function). -/

/-- The error of interest of the git engine: `head_id()` failed, mapped
by `errors::user_with_internal` — "The repository '…' did not have a
valid HEAD …". -/
inductive GitEngineError where
  | headInvalid
deriving DecidableEq, Repr

/-- Error kinds of the cross-cutting error model (§4.12): `user` vs
`system`. -/
inductive ErrorKind where
  | user
  | system
deriving DecidableEq, Repr

/-- `head_id()` failures are produced by `errors::user_with_internal`,
so their kind is `user`. -/
def GitEngineError.kind : GitEngineError → ErrorKind
  | .headInvalid => .user

/-- `GitEngine::clone` (clone mode): bare fetch-only clone, then
`New(Some("at <hex>"))` from the post-clone HEAD; no HEAD is a user
error. -/
def gitClone (postHead : Option String) : Except GitEngineError BackupState :=
  match postHead with
  | none => .error .headInvalid
  | some h => .ok (.new (some ("at " ++ h)))

/-- `GitEngine::fetch` (fetch mode): record the original HEAD, fetch,
read the new HEAD (required — missing HEAD is a user error); if the
original HEAD was present and equals the new one the result is
`Unchanged(Some("at <hex>"))`, otherwise `Updated(Some("<hex>"))`. -/
def gitFetch (originalHead postHead : Option String) :
    Except GitEngineError BackupState :=
  match postHead with
  | none => .error .headInvalid
  | some h =>
    match originalHead with
    | some oh => if oh = h then .ok (.unchanged (some ("at " ++ h)))
                 else .ok (.updated (some h))
    | none => .ok (.updated (some h))

/-- `GitEngine::backup`: fetch mode iff `target/.git` exists. -/
def gitBackup (gitDirExists : Bool) (originalHead postHead : Option String) :
    Except GitEngineError BackupState :=
  if gitDirExists then gitFetch originalHead postHead else gitClone postHead

/-! ## GitHub source selectors — `src/helpers/github.rs` -/

/-- `GitHubArtifactKind`: the three policy kinds. -/
inductive GitHubArtifactKind where
  | repo
  | release
  | gist
deriving DecidableEq, Repr

/-- `GitHubArtifactKind::api_endpoint`. -/
def GitHubArtifactKind.apiEndpoint : GitHubArtifactKind → String
  | .repo => "repos"
  | .release => "repos"
  | .gist => "gists"

/-- `GitHubRepoSourceKind`: the parsed `from` selector. -/
inductive GitHubRepoSourceKind where
  | currentUser
  | user (name : String)
  | org (name : String)
  | starred
  | repo (name : String)
  | gist (id : String)
deriving DecidableEq, Repr

/-- `GitHubRepoSourceKind::api_endpoint` for a given artifact kind. -/
def GitHubRepoSourceKind.apiEndpoint :
    GitHubRepoSourceKind → GitHubArtifactKind → String
  | .currentUser, .gist => GitHubArtifactKind.gist.apiEndpoint
  | .currentUser, k => "user/" ++ k.apiEndpoint
  | .user u, k => "users/" ++ u ++ "/" ++ k.apiEndpoint
  | .org o, k => "orgs/" ++ o ++ "/" ++ k.apiEndpoint
  | .repo r, _ => "repos/" ++ r
  | .gist g, _ => "gists/" ++ g
  | .starred, .gist => "gists/starred"
  | .starred, _ => "user/starred"

/-- The user error of `FromStr for GitHubRepoSourceKind`: "The 'from'
declaration '…' was not valid for a GitHub repository source.". -/
inductive FromParseError where
  | invalidFrom (s : String)
deriving DecidableEq, Repr

/-- `FromStr for GitHubRepoSourceKind`: split on `/` and match the
shapes `user`, `starred`, `users/<name>`, `orgs/<name>`,
`repos/<owner>/<name>`, `gists/<id>` (with the source's non-emptiness
guards); anything else is a user error. -/
def parseRepoSourceKind (s : String) : Except FromParseError GitHubRepoSourceKind :=
  match splitOnChar '/' s with
  | ["user"] => .ok .currentUser
  | ["starred"] => .ok .starred
  | ["users", u] =>
    if u.data.isEmpty then .error (.invalidFrom s) else .ok (.user u)
  | ["orgs", o] =>
    if o.data.isEmpty then .error (.invalidFrom s) else .ok (.org o)
  | ["repos", owner, repo] =>
    if repo.data.isEmpty then .error (.invalidFrom s)
    else .ok (.repo (owner ++ "/" ++ repo))
  | ["gists", g] =>
    if g.data.isEmpty then .error (.invalidFrom s) else .ok (.gist g)
  | _ => .error (.invalidFrom s)

/-! ## Gist source validation — `src/sources/github_gist.rs` -/

/-- The error outcomes of `GitHubGistSource::validate`. -/
inductive GistValidateError where
  /-- the `from` string did not parse (`policy.from.as_str().parse()?`). -/
  | parse (e : FromParseError)
  /-- "Your 'from' target '…' is not a valid GitHub username." -/
  | invalidUsername
  /-- "Your 'from' target '…' is not a fully qualified GitHub gist
  name." -/
  | invalidGistName
deriving DecidableEq, Repr

/-- `GitHubGistSource::validate`: parse the policy's `from` selector and
reject an empty username or an empty gist id; every other parsed shape —
including `Org(_)` — falls into the `_ => Ok(())` arm. -/
def gistValidate (fromField : String) : Except GistValidateError Unit :=
  match parseRepoSourceKind fromField with
  | .error e => .error (.parse e)
  | .ok target =>
    match target with
    | .user u => if u.data.isEmpty then .error .invalidUsername else .ok ()
    | .gist g => if g.data.isEmpty then .error .invalidGistName else .ok ()
    | _ => .ok ()

/-! ## Helper lemmas -/

theorem eqIgnoreAsciiCaseL_refl : ∀ cs : List Char, eqIgnoreAsciiCaseL cs cs = true
  | [] => rfl
  | c :: cs => by simp [eqIgnoreAsciiCaseL, eqIgnoreAsciiCaseL_refl cs]

mutual

/-- `PartialEq for FilterValue` is reflexive on every value free of NaN
numbers. -/
theorem feq_refl : ∀ v : FilterValue, v.noNaN = true → FilterValue.feq v v = true
  | .null, _ => rfl
  | .bool b, _ => by cases b <;> rfl
  | .number n, hn => by
    cases n with
    | nan => simp [FilterValue.noNaN] at hn
    | negInf => rfl
    | posInf => rfl
    | finite q => simp [FilterValue.feq, F64.beq]
  | .string s, _ => by
    simpa [FilterValue.feq, eqIgnoreAsciiCase] using eqIgnoreAsciiCaseL_refl s.data
  | .tuple vs, h => by
    have h' : FilterValue.noNaNList vs = true := by
      simpa [FilterValue.noNaN] using h
    simpa [FilterValue.feq] using feqList_refl vs h'

theorem feqList_refl :
    ∀ vs : List FilterValue, FilterValue.noNaNList vs = true →
      FilterValue.feqList vs vs = true
  | [], _ => rfl
  | v :: vs, h => by
    have h' := h
    simp [FilterValue.noNaNList] at h'
    simp [FilterValue.feqList, feq_refl v h'.1, feqList_refl vs h'.2]

end

theorem drainWhileFull_events (limit : Nat) :
    ∀ (js evs : List (RunEvent α ε)) (sizes : List Nat),
      (drainWhileFull limit js evs sizes).2.1 ++ (drainWhileFull limit js evs sizes).1
        = evs ++ js
  | [], evs, sizes => by
    unfold drainWhileFull
    split <;> simp
  | x :: rest, evs, sizes => by
    unfold drainWhileFull
    split
    · have := drainWhileFull_events limit rest (evs ++ [x]) (sizes ++ [rest.length])
      simpa using this
    · simp

theorem drainWhileFull_sizes (limit : Nat) :
    ∀ (js evs : List (RunEvent α ε)) (sizes : List Nat),
      ∀ s ∈ (drainWhileFull limit js evs sizes).2.2, s ∈ sizes ∨ s < js.length
  | [], evs, sizes => by
    unfold drainWhileFull
    split <;> simp
  | x :: rest, evs, sizes => by
    unfold drainWhileFull
    split
    · intro s hs
      rcases drainWhileFull_sizes limit rest (evs ++ [x]) (sizes ++ [rest.length]) s hs with
        h | h
      · rcases List.mem_append.mp h with h | h
        · exact Or.inl h
        · simp at h
          right
          simp [h]
      · right
        exact Nat.lt_succ_of_lt h
    · intro s hs
      exact Or.inl hs

theorem drainWhileFull_length (limit : Nat) (hl : 1 ≤ limit) :
    ∀ (js evs : List (RunEvent α ε)) (sizes : List Nat),
      (drainWhileFull limit js evs sizes).1.length < limit
  | [], evs, sizes => by
    unfold drainWhileFull
    split
    · next hle => simp at hle; omega
    · simpa using hl
  | x :: rest, evs, sizes => by
    unfold drainWhileFull
    split
    · exact drainWhileFull_length limit hl rest (evs ++ [x]) (sizes ++ [rest.length])
    · next hle => simpa using Nat.lt_of_not_le hle

theorem drainAll_events :
    ∀ (js evs : List (RunEvent α ε)) (sizes : List Nat),
      (drainAll js evs sizes).1 = evs ++ js
  | [], evs, sizes => by simp [drainAll]
  | x :: rest, evs, sizes => by
    have := drainAll_events rest (evs ++ [x]) (sizes ++ [rest.length])
    simpa [drainAll] using this

theorem drainAll_sizes :
    ∀ (js evs : List (RunEvent α ε)) (sizes : List Nat),
      ∀ s ∈ (drainAll js evs sizes).2, s ∈ sizes ∨ s < js.length
  | [], evs, sizes => by simp [drainAll]
  | x :: rest, evs, sizes => by
    intro s hs
    rcases drainAll_sizes rest (evs ++ [x]) (sizes ++ [rest.length]) s hs with h | h
    · rcases List.mem_append.mp h with h | h
      · exact Or.inl h
      · simp at h
        right
        simp [h]
    · right
      exact Nat.lt_succ_of_lt h

/-- The join-set invariant of the produce loop: starting from a state
whose join set and observed sizes are within the limit, every size the
loop ever records stays within the limit. -/
theorem runLoop_sizes_le (p : Pairing) (filterB : α → Bool)
    (engineRes : α → Except ε BackupState) (cancel : Nat → Bool)
    (hl : 1 ≤ p.concurrencyLimit) :
    ∀ (entities : List α) (i : Nat) (acc : RunAcc α ε),
      acc.joinSet.length ≤ p.concurrencyLimit →
      (∀ s ∈ acc.sizes, s ≤ p.concurrencyLimit) →
      ∀ s ∈ (runLoop p filterB engineRes cancel entities i acc).sizes,
        s ≤ p.concurrencyLimit
  | [], i, acc => by
    intro hjs hsz s hs
    simp only [runLoop] at hs
    rcases drainAll_sizes acc.joinSet acc.events acc.sizes s hs with h | h
    · exact hsz s h
    · omega
  | e :: rest, i, acc => by
    intro hjs hsz s hs
    have hdlen := drainWhileFull_length p.concurrencyLimit hl
      acc.joinSet acc.events acc.sizes
    have hdsz : ∀ t ∈ (drainWhileFull p.concurrencyLimit acc.joinSet acc.events
        acc.sizes).2.2, t ≤ p.concurrencyLimit := by
      intro t ht
      rcases drainWhileFull_sizes p.concurrencyLimit acc.joinSet acc.events acc.sizes
        t ht with h | h
      · exact hsz t h
      · omega
    simp only [runLoop] at hs
    by_cases hc : cancel i
    · simp only [hc, if_true] at hs
      rcases drainAll_sizes _ _ _ s hs with h | h
      · exact hdsz s h
      · omega
    · simp only [hc, if_false] at hs
      by_cases hd : p.dryRun
      · simp only [hd, if_true] at hs
        exact runLoop_sizes_le p filterB engineRes cancel hl rest (i + 1) _
          (by simpa using Nat.le_of_lt hdlen) (by simpa using hdsz) s hs
      · simp only [hd, if_false] at hs
        by_cases hf : filterB e
        · simp only [hf, if_true] at hs
          refine runLoop_sizes_le p filterB engineRes cancel hl rest (i + 1) _
            ?_ ?_ s hs
          · simpa using hdlen
          · intro t ht
            rcases List.mem_append.mp ht with h | h
            · exact hdsz t h
            · simp at h
              omega
        · simp only [hf, if_false] at hs
          exact runLoop_sizes_le p filterB engineRes cancel hl rest (i + 1) _
            (by simpa using Nat.le_of_lt hdlen) (by simpa using hdsz) s hs

theorem Fs.set_same (fs : Fs) (p : String) (v : Option String) : (fs.set p v) p = v := by
  simp [Fs.set]

theorem Fs.set_other (fs : Fs) {p q : String} (v : Option String) (h : q ≠ p) :
    (fs.set p v) q = fs q := by
  simp [Fs.set, h]

theorem splitLastDot_none : ∀ (cs : List Char), splitLastDot cs = none → ('.' : Char) ∉ cs
  | [] => fun h => by simp
  | c :: cs => fun h => by
    unfold splitLastDot at h
    cases hs : splitLastDot cs with
    | some pr =>
      obtain ⟨p₁, p₂⟩ := pr
      rw [hs] at h
      simp at h
    | none =>
      rw [hs] at h
      by_cases hc : c = '.'
      · simp [hc] at h
      · simp only [List.mem_cons, not_or]
        exact ⟨fun he => hc he.symm, splitLastDot_none cs hs⟩

theorem splitLastDot_some : ∀ (cs : List Char) (pre post : List Char),
    splitLastDot cs = some (pre, post) →
    cs = pre ++ '.' :: post ∧ ('.' : Char) ∉ post
  | [], pre, post => fun h => by simp [splitLastDot] at h
  | c :: cs, pre, post => fun h => by
    unfold splitLastDot at h
    cases hs : splitLastDot cs with
    | some pr =>
      obtain ⟨p₁, p₂⟩ := pr
      rw [hs] at h
      simp only [Option.some.injEq, Prod.mk.injEq] at h
      have ih := splitLastDot_some cs p₁ p₂ hs
      refine ⟨?_, ?_⟩
      · rw [← h.1, ← h.2, List.cons_append, ← ih.1]
      · rw [← h.2]; exact ih.2
    | none =>
      rw [hs] at h
      by_cases hc : c = '.'
      · subst hc
        rw [if_pos rfl] at h
        simp only [Option.some.injEq, Prod.mk.injEq] at h
        refine ⟨?_, ?_⟩
        · rw [← h.1, ← h.2]; rfl
        · rw [← h.2]; exact splitLastDot_none cs hs
      · simp [hc] at h

theorem stemExt_some (name stem e : List Char) (h : stemExt name = (stem, some e)) :
    name = stem ++ '.' :: e ∧ ('.' : Char) ∉ e := by
  cases name with
  | nil => simp [stemExt] at h
  | cons c rest =>
    simp only [stemExt] at h
    cases hs : splitLastDot rest with
    | some pr =>
      obtain ⟨p₁, p₂⟩ := pr
      rw [hs] at h
      simp only [Prod.mk.injEq, Option.some.injEq] at h
      have hd := splitLastDot_some rest p₁ p₂ hs
      refine ⟨?_, ?_⟩
      · rw [← h.1, ← h.2, List.cons_append, ← hd.1]
      · rw [← h.2]; exact hd.2
    | none =>
      rw [hs] at h
      simp at h

theorem stemExt_none (name stem : List Char) (h : stemExt name = (stem, none)) :
    stem = name := by
  cases name with
  | nil =>
    simp [stemExt] at h
    simp [h]
  | cons c rest =>
    simp only [stemExt] at h
    cases hs : splitLastDot rest with
    | some pr =>
      obtain ⟨p₁, p₂⟩ := pr
      rw [hs] at h
      simp at h
    | none =>
      rw [hs] at h
      simp only [Prod.mk.injEq] at h
      rw [← h.1]

theorem mkString_append (a b : List Char) :
    (⟨a⟩ : String) ++ (⟨b⟩ : String) = (⟨a ++ b⟩ : String) := rfl

theorem splitDirName_append (p : String) :
    (splitDirName p).1.data ++ (splitDirName p).2.data = p.data := by
  unfold splitDirName
  split
  · simp [List.take_append_drop]
  · simp

theorem withExtension_data (p e : String) (he : ¬ e.data.isEmpty) :
    (withExtension p e).data
      = (splitDirName p).1.data ++ ((stemExt (splitDirName p).2.data).1
          ++ '.' :: e.data) := by
  rcases hdn : splitDirName p with ⟨dir, name⟩
  unfold withExtension
  rw [hdn]
  simp only
  rw [if_neg (by simpa using he)]
  simp [String.data_append]

/-- The first character of `dropWhile (· == '.') l` is not a dot, and a
list whose members are not all dots has a nonempty `dropWhile`. -/
theorem dropWhileDots_ne_nil (ζl sufl : List Char)
    (hmem : ∃ x ∈ sufl, ¬((x == '.') = true)) :
    List.dropWhile (fun ch => ch == '.') (ζl ++ sufl) ≠ [] := by
  rw [Ne, List.dropWhile_eq_nil_iff]
  intro hall
  obtain ⟨x, hx, hpx⟩ := hmem
  exact hpx (hall x (List.mem_append_right _ hx))

theorem getLast?_dropWhileDots_append (ζl sufl : List Char) (c : Char)
    (hne : sufl ≠ []) (hlast : sufl.getLast? = some c)
    (hmem : ∃ x ∈ sufl, ¬((x == '.') = true)) :
    (List.dropWhile (fun ch => ch == '.') (ζl ++ sufl)).getLast? = some c := by
  have hdw := dropWhileDots_ne_nil ζl sufl hmem
  have h2 := List.getLast?_append_of_ne_nil
    (List.takeWhile (fun ch => ch == '.') (ζl ++ sufl)) hdw
  rw [List.takeWhile_append_dropWhile (fun ch => ch == '.') (ζl ++ sufl)] at h2
  rw [← h2, List.getLast?_append_of_ne_nil ζl hne, hlast]

theorem trimStartDots_tmp_last (ζ : String) :
    (trimStartDots (ζ ++ ".tmp")).data.getLast? = some 'p' := by
  show (List.dropWhile (fun c => c == '.') ((ζ ++ ".tmp").data)).getLast? = some 'p'
  rw [String.data_append]
  exact getLast?_dropWhileDots_append ζ.data (".tmp" : String).data 'p'
    (by decide) (by decide) ⟨'p', by decide, by decide⟩

theorem trimStartDots_sha_last (ζ : String) :
    (trimStartDots (ζ ++ ".sha256")).data.getLast? = some '6' := by
  show (List.dropWhile (fun c => c == '.') ((ζ ++ ".sha256").data)).getLast? = some '6'
  rw [String.data_append]
  exact getLast?_dropWhileDots_append ζ.data (".sha256" : String).data '6'
    (by decide) (by decide) ⟨'6', by decide, by decide⟩

theorem sha_append_last (ζ : String) :
    ((ζ ++ ".sha256").data).getLast? = some '6' := by
  rw [String.data_append, List.getLast?_append_of_ne_nil ζ.data (by decide)]
  decide

theorem data_ne_nil_of_getLast? {l : List Char} {c : Char}
    (h : l.getLast? = some c) : l ≠ [] := by
  intro hnil
  rw [hnil] at h
  simp at h

/-- Two `with_extension` results on the same path with different
nonempty extensions are different paths. -/
theorem withExtension_ne (p : String) (e₁ e₂ : String)
    (h1 : ¬ e₁.data.isEmpty) (h2 : ¬ e₂.data.isEmpty)
    (hne : e₁.data ≠ e₂.data) :
    withExtension p e₁ ≠ withExtension p e₂ := by
  intro heq
  apply hne
  have hd : (withExtension p e₁).data = (withExtension p e₂).data := by rw [heq]
  rw [withExtension_data p e₁ h1, withExtension_data p e₂ h2] at hd
  exact (List.cons.inj
    (List.append_cancel_left (List.append_cancel_left hd))).2

/-- The temp path is distinct from the target, from the sidecar path the
engine reads, and from the sidecar path the engine writes. -/
theorem tempPathOf_ne (p : String) :
    tempPathOf p ≠ p
    ∧ tempPathOf p ≠ shaReadPathOf p
    ∧ tempPathOf p ≠ shaWritePathOf p := by
  have htmpLast := trimStartDots_tmp_last (extensionOrDefault p)
  have htmpNe : ¬ (trimStartDots (extensionOrDefault p ++ ".tmp")).data.isEmpty := by
    have := data_ne_nil_of_getLast? htmpLast
    simpa using this
  refine ⟨?_, ?_, ?_⟩
  · intro heq
    have hd : (withExtension p (trimStartDots (extensionOrDefault p ++ ".tmp"))).data
        = p.data := congrArg String.data heq
    rw [withExtension_data p _ htmpNe] at hd
    conv at hd => rhs; rw [← splitDirName_append p]
    have hname := List.append_cancel_left hd
    cases hext : (stemExt (splitDirName p).2.data).2 with
    | none =>
      have hstem : (stemExt (splitDirName p).2.data).1 = (splitDirName p).2.data :=
        stemExt_none (splitDirName p).2.data _ (by rw [← hext])
      rw [hstem] at hname
      have := congrArg List.length hname
      simp at this
    | some ext =>
      have hdec := stemExt_some (splitDirName p).2.data _ ext (by rw [← hext])
      have hζ : (extensionOrDefault p).data = ext := by
        unfold extensionOrDefault
        rw [hext]
      conv at hname => rhs; rw [hdec.1]
      have hx3 : (trimStartDots (extensionOrDefault p ++ ".tmp")).data = ext :=
        (List.cons.inj (List.append_cancel_left hname)).2
      have hdata : (trimStartDots (extensionOrDefault p ++ ".tmp")).data
          = List.dropWhile (fun c => c == '.') ((extensionOrDefault p).data
            ++ ('.' :: ['t', 'm', 'p'])) := by
        show List.dropWhile (fun c => c == '.')
            ((extensionOrDefault p ++ ".tmp").data) = _
        rw [String.data_append]
      rw [hζ] at hdata
      cases hcext : ext with
      | nil =>
        subst hcext
        rw [hdata] at hx3
        exact absurd hx3 (by decide)
      | cons hch t =>
        subst hcext
        have hhd : ¬ ((fun c => c == '.') hch = true) := by
          simp only [beq_iff_eq]
          intro hh
          exact hdec.2 (by simp [hh])
        rw [hdata, List.cons_append, List.dropWhile_cons, if_neg hhd] at hx3
        have := congrArg List.length hx3
        simp at this
  · exact withExtension_ne p _ _ htmpNe
      (by simpa using data_ne_nil_of_getLast? (trimStartDots_sha_last
        (extensionOrDefault p)))
      (by
        intro hdd
        have hl2 := hdd ▸ htmpLast
        rw [trimStartDots_sha_last (extensionOrDefault p)] at hl2
        simp at hl2)
  · exact withExtension_ne p _ _ htmpNe
      (by
        have hne6 := data_ne_nil_of_getLast? (sha_append_last
          (extensionOrDefault p))
        simp only [String.data_append] at hne6 ⊢
        simp [hne6])
      (by
        intro hdd
        have hl2 := hdd ▸ htmpLast
        rw [sha_append_last (extensionOrDefault p)] at hl2
        simp at hl2)

/-- Cancellation inside the chunk loop: if every earlier iteration saw a
clear flag and a successful write, and iteration `i` reads the flag set,
the loop returns `Skipped` with the temp file removed and every other
path untouched. -/
theorem chunkLoop_cancel (tempPath : String) (cancel writeOk : Nat → Bool) :
    ∀ (chunks : List String) (k : Nat) (acc : String) (fs : Fs) (i : Nat),
      i < chunks.length →
      (∀ j, j < i → cancel (2 + (k + j)) = false ∧ writeOk (k + j) = true) →
      cancel (2 + (k + i)) = true →
      (chunkLoop tempPath cancel writeOk chunks k acc fs).1 = .inl (.ok .skipped)
      ∧ (chunkLoop tempPath cancel writeOk chunks k acc fs).2 tempPath = none
      ∧ ∀ q, q ≠ tempPath → (chunkLoop tempPath cancel writeOk chunks k acc fs).2 q = fs q
  | [], k, acc, fs, i => by
    intro hi
    simp at hi
  | c :: cs, k, acc, fs, i => by
    intro hi hpre hcan
    cases i with
    | zero =>
      have hc : cancel (2 + k) = true := by simpa using hcan
      refine ⟨?_, ?_, ?_⟩
      · simp [chunkLoop, hc]
      · simp only [chunkLoop, hc, if_true]
        exact Fs.set_same _ _ _
      · intro q hq
        simp only [chunkLoop, hc, if_true]
        exact Fs.set_other _ _ hq
    | succ j =>
      have hc0 : cancel (2 + k) = false := by
        have := (hpre 0 (Nat.succ_pos j)).1
        simpa using this
      have hw0 : writeOk k = true := by
        have := (hpre 0 (Nat.succ_pos j)).2
        simpa using this
      simp only [chunkLoop, hc0, hw0, if_true, if_false, Bool.false_eq_true]
      have ih := chunkLoop_cancel tempPath cancel writeOk cs (k + 1) (acc ++ c)
        (fs.set tempPath (some (acc ++ c))) j
        (by simpa using Nat.lt_of_succ_lt_succ hi)
        (by
          intro j' hj'
          have h := hpre (j' + 1) (Nat.succ_lt_succ hj')
          have he : k + (j' + 1) = k + 1 + j' := by omega
          rw [he] at h
          exact h)
        (by
          have he : 2 + (k + (j + 1)) = 2 + (k + 1 + j) := by omega
          rw [← he]
          exact hcan)
      refine ⟨ih.1, ih.2.1, fun q hq => ?_⟩
      rw [ih.2.2 q hq, Fs.set_other _ _ hq]

/-- Moving a singleton from the middle of an append chain to the front
of its tail is a permutation. -/
theorem perm_middle_singleton (a b c : List γ) (x : γ) :
    ((a ++ [x]) ++ b ++ c).Perm ((a ++ b) ++ (x :: c)) := by
  have h1 : (a ++ [x]) ++ b ++ c = a ++ ([x] ++ b) ++ c := by simp
  have h2 : (a ++ b) ++ (x :: c) = a ++ (b ++ [x]) ++ c := by simp
  rw [h1, h2]
  exact (List.perm_append_comm.append_left a).append_right c

/-- The event/engine-call characterisation of the produce loop for an
uncancelled, non-dry run: the emitted events are (as a multiset) the
pending and already-emitted events plus, per remaining entity, either
its engine result (filter truthy) or `Ok((entity, Skipped))` (filter
falsy); the engine is invoked exactly for the filter-truthy entities,
in order. -/
theorem runLoop_events_calls (p : Pairing) (filterB : α → Bool)
    (engineRes : α → Except ε BackupState) (cancel : Nat → Bool)
    (hdry : p.dryRun = false) (hcancel : ∀ n, cancel n = false) :
    ∀ (entities : List α) (i : Nat) (acc : RunAcc α ε),
      ((runLoop p filterB engineRes cancel entities i acc).events).Perm
        (acc.events ++ acc.joinSet ++ entities.map (fun e =>
          if filterB e then (engineRes e).map (fun s => (e, s))
          else .ok (e, .skipped)))
      ∧ (runLoop p filterB engineRes cancel entities i acc).engineCalls
          = acc.engineCalls ++ entities.filter filterB
  | [], i, acc => by
    constructor
    · simp only [runLoop]
      rw [drainAll_events acc.joinSet acc.events acc.sizes]
      simp
    · simp [runLoop]
  | e :: rest, i, acc => by
    have hde := drainWhileFull_events p.concurrencyLimit
      acc.joinSet acc.events acc.sizes
    simp only [runLoop]
    rw [if_neg (by simp [hcancel i]), if_neg (by simp [hdry])]
    by_cases hf : filterB e
    · rw [if_pos hf]
      have ih := runLoop_events_calls p filterB engineRes cancel hdry hcancel rest (i + 1)
        { joinSet := (drainWhileFull p.concurrencyLimit acc.joinSet acc.events
            acc.sizes).1 ++ [(engineRes e).map (fun s => (e, s))],
          events := (drainWhileFull p.concurrencyLimit acc.joinSet acc.events
            acc.sizes).2.1,
          engineCalls := acc.engineCalls ++ [e],
          sizes := (drainWhileFull p.concurrencyLimit acc.joinSet acc.events
            acc.sizes).2.2 ++ [(drainWhileFull p.concurrencyLimit acc.joinSet
            acc.events acc.sizes).1.length + 1] }
      constructor
      · refine ih.1.trans (List.Perm.of_eq ?_)
        simp only [List.map_cons, if_pos hf]
        simp only [← List.append_assoc]
        rw [hde]
        simp
      · rw [ih.2]
        simp [hf]
    · rw [if_neg hf]
      have ih := runLoop_events_calls p filterB engineRes cancel hdry hcancel rest (i + 1)
        { joinSet := (drainWhileFull p.concurrencyLimit acc.joinSet acc.events
            acc.sizes).1,
          events := (drainWhileFull p.concurrencyLimit acc.joinSet acc.events
            acc.sizes).2.1 ++ [.ok (e, .skipped)],
          engineCalls := acc.engineCalls,
          sizes := (drainWhileFull p.concurrencyLimit acc.joinSet acc.events
            acc.sizes).2.2 }
      constructor
      · refine ih.1.trans ?_
        simp only [List.map_cons, if_neg hf]
        have hperm := perm_middle_singleton
          (drainWhileFull p.concurrencyLimit acc.joinSet acc.events acc.sizes).2.1
          (drainWhileFull p.concurrencyLimit acc.joinSet acc.events acc.sizes).1
          (rest.map (fun e =>
            if filterB e then (engineRes e).map (fun s => (e, s))
            else .ok (e, .skipped)))
          (Except.ok (e, BackupState.skipped))
        rw [hde] at hperm
        exact hperm
      · rw [ih.2]
        simp [hf]

/-! ## The claims -/

/-- C1:  The specification's grammar gives `cmp := unary
(('contains'|'in'|'startswith'|'endswith'|'>'|'>='|'<'|'<=') unary)?` and
claims that the parser succeeds on every grammar-valid input — in
particular on `unary ('>'|'>='|'<'|'<=') unary` forms such as
`number > 0` and `2 > 1`.  The code refutes this: `Parser::comparison`
peeks only for `In | Contains | StartsWith | EndsWith`, so an ordering
operator is never consumed and `ensure_end` reports it as an unexpected
trailing token.  This theorem evaluates the embedded parser on the
lexer's token streams for `"number > 0"` and `"2 > 1"` (locations as the
scanner produces them) and shows both parses fail, contradicting the
claim — and contradicting the repository's own tests
(`interpreter.rs::tests::greater_than` parses `"2 > 1"` with
`.expect(...)`, and `pairing.rs::tests::filtering` parses
`"repo.forks > 3"`). -/
theorem c1_parser_rejects_ordering_comparison :
    Parser.parse [Token.property ⟨1, 1⟩ "number", Token.greaterThan ⟨1, 7⟩,
        Token.number ⟨1, 10⟩ "0"]
      = .error (.unexpectedTrailing (Token.greaterThan ⟨1, 7⟩))
    ∧ Parser.parse [Token.number ⟨1, 1⟩ "2", Token.greaterThan ⟨1, 2⟩,
        Token.number ⟨1, 5⟩ "1"]
      = .error (.unexpectedTrailing (Token.greaterThan ⟨1, 2⟩)) :=
  ⟨rfl, rfl⟩

/-- C2:  For a pairing run with `dry_run = false` and a cancellation
flag that never reads set: every source entity whose filter truthiness
is false yields exactly the event `Ok((entity, Skipped))` and never
reaches the engine; the engine is invoked exactly for the filter-truthy
entities (so the invocation count equals the truthy count), and the
emitted events are, as a multiset, one event per entity — the engine's
result for truthy entities, `Skipped` for falsy ones. -/
theorem c2_falsy_filter_skips_and_engine_count (p : Pairing) (filterB : α → Bool)
    (engineRes : α → Except ε BackupState) (cancel : Nat → Bool) (entities : List α)
    (hdry : p.dryRun = false) (hcancel : ∀ n, cancel n = false) :
    ((runAllBackups p filterB engineRes cancel entities).events).Perm
        (entities.map (fun e =>
          if filterB e then (engineRes e).map (fun s => (e, s))
          else .ok (e, .skipped)))
    ∧ (runAllBackups p filterB engineRes cancel entities).engineCalls
        = entities.filter filterB
    ∧ (runAllBackups p filterB engineRes cancel entities).engineCalls.length
        = (entities.filter filterB).length
    ∧ ∀ e ∈ entities, filterB e = false →
        Except.ok (e, BackupState.skipped)
            ∈ (runAllBackups p filterB engineRes cancel entities).events
        ∧ e ∉ (runAllBackups p filterB engineRes cancel entities).engineCalls := by
  have h := runLoop_events_calls p filterB engineRes cancel hdry hcancel entities 0
    ⟨[], [], [], [0]⟩
  have hev : ((runAllBackups p filterB engineRes cancel entities).events).Perm
      (entities.map (fun e =>
        if filterB e then (engineRes e).map (fun s => (e, s))
        else .ok (e, .skipped))) := by
    simpa [runAllBackups] using h.1
  have hcalls : (runAllBackups p filterB engineRes cancel entities).engineCalls
      = entities.filter filterB := by
    simpa [runAllBackups] using h.2
  refine ⟨hev, hcalls, by rw [hcalls], ?_⟩
  intro e he hfe
  constructor
  · refine hev.mem_iff.mpr ?_
    refine List.mem_map.mpr ⟨e, he, ?_⟩
    simp [hfe]
  · intro hmem
    rw [hcalls] at hmem
    have := List.of_mem_filter hmem
    rw [hfe] at this
    exact Bool.false_ne_true this

/-- Witness for C2 at a concrete run: entities `[0, 1]` through an
even-only filter with a limit-2 pairing — the events are a permutation
of the per-entity outcomes and the engine ran exactly for `[0]`. -/
theorem c2_falsy_filter_skips_and_engine_count_witness :
    ((runAllBackups ⟨false, 2⟩ (fun n : Nat => n % 2 == 0)
        (fun _ => (.ok (.new none) : Except Unit BackupState)) (fun _ => false) [0, 1]).events).Perm
      ([0, 1].map (fun e =>
        if e % 2 == 0 then (Except.ok (BackupState.new none)).map (fun s => (e, s))
        else .ok (e, .skipped)))
    ∧ (runAllBackups ⟨false, 2⟩ (fun n : Nat => n % 2 == 0)
        (fun _ => (.ok (.new none) : Except Unit BackupState)) (fun _ => false) [0, 1]).engineCalls
      = [0, 1].filter (fun n => n % 2 == 0) := by
  have h := c2_falsy_filter_skips_and_engine_count ⟨false, 2⟩
    (fun n : Nat => n % 2 == 0) (fun _ => (.ok (.new none) : Except Unit BackupState)) (fun _ => false) [0, 1]
    rfl (fun _ => rfl)
  exact ⟨h.1, h.2.1⟩

/-- C7: if the cancellation flag becomes set during the chunk-streaming
loop of `HttpFileEngine::backup` (reads at earlier check points clear,
all earlier chunk writes successful), the call returns `Ok(Skipped)`,
the temporary `.tmp` file is deleted, and every other path — in
particular the target file and its sidecar, both the path the engine
reads and the path it writes — retains its pre-run content. -/
theorem c7_cancel_mid_stream_is_atomic (shaHex : String → String)
    (timeFmt : Int → String) (entity : HttpFileEntity) (root : String) (fs : Fs)
    (targetMtime : Option Int) (resp : HttpResp) (cancel writeOk : Nat → Bool)
    (hmt : mtimeShortCircuit entity.lastModified targetMtime = false)
    (hc0 : cancel 0 = false) (hok : resp.ok = true) (hc1 : cancel 1 = false)
    (i : Nat) (hi : i < resp.chunks.length)
    (hpre : ∀ j, j < i → cancel (2 + j) = false ∧ writeOk j = true)
    (hcan : cancel (2 + i) = true) :
    (httpBackup shaHex timeFmt entity root fs targetMtime resp cancel writeOk).1
      = .ok .skipped
    ∧ (httpBackup shaHex timeFmt entity root fs targetMtime resp cancel writeOk).2
        (tempPathOf (root ++ "/" ++ entity.name)) = none
    ∧ (httpBackup shaHex timeFmt entity root fs targetMtime resp cancel writeOk).2
        (root ++ "/" ++ entity.name) = fs (root ++ "/" ++ entity.name)
    ∧ (httpBackup shaHex timeFmt entity root fs targetMtime resp cancel writeOk).2
        (shaReadPathOf (root ++ "/" ++ entity.name))
      = fs (shaReadPathOf (root ++ "/" ++ entity.name))
    ∧ (httpBackup shaHex timeFmt entity root fs targetMtime resp cancel writeOk).2
        (shaWritePathOf (root ++ "/" ++ entity.name))
      = fs (shaWritePathOf (root ++ "/" ++ entity.name))
    ∧ ∀ q, q ≠ tempPathOf (root ++ "/" ++ entity.name) →
        (httpBackup shaHex timeFmt entity root fs targetMtime resp cancel writeOk).2 q
          = fs q := by
  have hL := chunkLoop_cancel (tempPathOf (root ++ "/" ++ entity.name)) cancel writeOk
    resp.chunks 0 ""
    (fs.set (tempPathOf (root ++ "/" ++ entity.name)) (some "")) i hi
    (by
      intro j hj
      simpa using hpre j hj)
    (by simpa using hcan)
  rcases hCL : chunkLoop (tempPathOf (root ++ "/" ++ entity.name)) cancel writeOk
      resp.chunks 0 ""
      (fs.set (tempPathOf (root ++ "/" ++ entity.name)) (some "")) with ⟨r, fs2⟩
  rw [hCL] at hL
  have hr : r = .inl (.ok .skipped) := hL.1
  subst hr
  dsimp only at hL
  have hB : httpBackup shaHex timeFmt entity root fs targetMtime resp cancel writeOk
      = (.ok .skipped, fs2) := by
    unfold httpBackup
    simp only [hmt, hc0, hok, hc1, Bool.not_true, Bool.false_eq_true, if_false]
    rw [hCL]
  obtain ⟨hTne, hRne, hWne⟩ := tempPathOf_ne (root ++ "/" ++ entity.name)
  rw [hB]
  refine ⟨rfl, hL.2.1, ?_, ?_, ?_, ?_⟩
  · show fs2 (root ++ "/" ++ entity.name) = fs (root ++ "/" ++ entity.name)
    rw [hL.2.2 _ (Ne.symm hTne), Fs.set_other _ _ (Ne.symm hTne)]
  · show fs2 (shaReadPathOf (root ++ "/" ++ entity.name))
      = fs (shaReadPathOf (root ++ "/" ++ entity.name))
    rw [hL.2.2 _ (Ne.symm hRne), Fs.set_other _ _ (Ne.symm hRne)]
  · show fs2 (shaWritePathOf (root ++ "/" ++ entity.name))
      = fs (shaWritePathOf (root ++ "/" ++ entity.name))
    rw [hL.2.2 _ (Ne.symm hWne), Fs.set_other _ _ (Ne.symm hWne)]
  · intro q hq
    show fs2 q = fs q
    rw [hL.2.2 q hq, Fs.set_other _ _ hq]

/-- Witness for C7 at a concrete run: two chunks, the flag set from read
index 3 onward (so the pre-checks read clear and chunk 1's loop head
reads set): the call is skipped, the temp file is gone, and the (absent)
target stays absent. -/
theorem c7_cancel_mid_stream_is_atomic_witness :
    (httpBackup (fun _ => "h") (fun _ => "T")
        { url := "u", name := "file.bin", credentials := .none,
          lastModified := none, contentType := none }
        "to" (fun _ => none) none { ok := true, chunks := ["a", "b"] }
        (fun n => decide (3 ≤ n)) (fun _ => true)).1 = .ok .skipped
    ∧ (httpBackup (fun _ => "h") (fun _ => "T")
        { url := "u", name := "file.bin", credentials := .none,
          lastModified := none, contentType := none }
        "to" (fun _ => none) none { ok := true, chunks := ["a", "b"] }
        (fun n => decide (3 ≤ n)) (fun _ => true)).2
        (tempPathOf ("to" ++ "/" ++ "file.bin")) = none
    ∧ (httpBackup (fun _ => "h") (fun _ => "T")
        { url := "u", name := "file.bin", credentials := .none,
          lastModified := none, contentType := none }
        "to" (fun _ => none) none { ok := true, chunks := ["a", "b"] }
        (fun n => decide (3 ≤ n)) (fun _ => true)).2
        ("to" ++ "/" ++ "file.bin") = (fun _ => none : Fs) ("to" ++ "/" ++ "file.bin") := by
  have h := c7_cancel_mid_stream_is_atomic (fun _ => "h") (fun _ => "T")
    { url := "u", name := "file.bin", credentials := .none,
      lastModified := none, contentType := none }
    "to" (fun _ => none) none { ok := true, chunks := ["a", "b"] }
    (fun n => decide (3 ≤ n)) (fun _ => true)
    rfl (by decide) rfl (by decide) 1 (by decide)
    (by
      intro j hj
      have hj0 : j = 0 := by omega
      subst hj0
      exact ⟨by decide, rfl⟩)
    (by decide)
  exact ⟨h.1, h.2.1, h.2.2.1⟩

/-- C8: Throughout `run_all_backups` the join set holds at most
`concurrency_limit` tasks — the loop head drains completions while the
set is full, so every observed size stays within the limit (for the
limits the builder can produce, i.e. `≥ 1`) — and
`with_concurrency_limit(0)` leaves the configured pairing unchanged,
whose default limit from `Pairing::new` is `10`. -/
theorem c8_concurrency_ceiling (p : Pairing) (filterB : α → Bool)
    (engineRes : α → Except ε BackupState) (cancel : Nat → Bool) (entities : List α)
    (hl : 1 ≤ p.concurrencyLimit) :
    (∀ s ∈ (runAllBackups p filterB engineRes cancel entities).sizes,
        s ≤ p.concurrencyLimit)
    ∧ (∀ q : Pairing, q.withConcurrencyLimit 0 = q)
    ∧ Pairing.new.concurrencyLimit = 10 := by
  refine ⟨?_, fun q => rfl, rfl⟩
  refine runLoop_sizes_le p filterB engineRes cancel hl entities 0 ⟨[], [], [], [0]⟩
    (by simp) ?_
  intro s hs
  simp at hs
  omega

/-- Witness for C8 at a concrete run with limit 2 over four entities:
every observed join-set size is at most 2, and resetting the limit to 0
keeps the default pairing unchanged. -/
theorem c8_concurrency_ceiling_witness :
    ((runAllBackups ⟨false, 2⟩ (fun n : Nat => n % 2 == 0)
        (fun _ => (.ok (.new none) : Except Unit BackupState)) (fun _ => false) [0, 1, 2, 3]).sizes).all
      (fun s => decide (s ≤ 2)) = true
    ∧ Pairing.new.withConcurrencyLimit 0 = Pairing.new := by
  have h := c8_concurrency_ceiling ⟨false, 2⟩
    (fun n : Nat => n % 2 == 0) (fun _ => (.ok (.new none) : Except Unit BackupState)) (fun _ => false)
    [0, 1, 2, 3] (by decide)
  refine ⟨?_, h.2.1 Pairing.new⟩
  rw [List.all_eq_true]
  intro s hs
  exact decide_eq_true (h.1 s hs)

/-- C3: the claim (and the spec's algorithm) says that, after
downloading a body with digest `h`, the engine either short-circuits on
a matching sidecar `<target>.sha256`, or renames the temp file in place
and "writes the sidecar" — the same `<target>.sha256` — "containing h",
returning `Updated`/`New` with the documented detail.  The code computes
the sidecar path twice and differently: the short-circuit *read* path
applies `.trim_start_matches('.')` to the new extension, the final
*write* path does not.  For a target file name without an extension the
written sidecar is therefore `<target>..sha256`, not `<target>.sha256`,
and a re-run can never see it.  Evaluated at the failing input — entity
name `"file"`, no `last_modified`, body digest `"aabb"`, fresh target
directory `"to"`: the run returns `New(Some("at sha256:aabb"))` and
moves the body into place as the claim says, but writes the sidecar at
`to/file..sha256` and leaves the claim's sidecar path `to/file.sha256`
absent. -/
theorem c3_sidecar_write_path_diverges :
    (httpBackup (fun _ => "aabb") (fun _ => "T")
        { url := "u", name := "file", credentials := .none,
          lastModified := none, contentType := none }
        "to" (fun _ => none) none { ok := true, chunks := ["data"] }
        (fun _ => false) (fun _ => true)).1
      = .ok (.new (some ("at sha256:" ++ "aabb")))
    ∧ (httpBackup (fun _ => "aabb") (fun _ => "T")
        { url := "u", name := "file", credentials := .none,
          lastModified := none, contentType := none }
        "to" (fun _ => none) none { ok := true, chunks := ["data"] }
        (fun _ => false) (fun _ => true)).2 "to/file" = some "data"
    ∧ (httpBackup (fun _ => "aabb") (fun _ => "T")
        { url := "u", name := "file", credentials := .none,
          lastModified := none, contentType := none }
        "to" (fun _ => none) none { ok := true, chunks := ["data"] }
        (fun _ => false) (fun _ => true)).2 "to/file.tmp" = none
    ∧ (httpBackup (fun _ => "aabb") (fun _ => "T")
        { url := "u", name := "file", credentials := .none,
          lastModified := none, contentType := none }
        "to" (fun _ => none) none { ok := true, chunks := ["data"] }
        (fun _ => false) (fun _ => true)).2 "to/file..sha256" = some "aabb"
    ∧ (httpBackup (fun _ => "aabb") (fun _ => "T")
        { url := "u", name := "file", credentials := .none,
          lastModified := none, contentType := none }
        "to" (fun _ => none) none { ok := true, chunks := ["data"] }
        (fun _ => false) (fun _ => true)).2 "to/file.sha256" = none
    ∧ shaWritePathOf "to/file" = "to/file..sha256"
    ∧ shaReadPathOf "to/file" = "to/file.sha256"
    ∧ shaWritePathOf "to/file" ≠ shaReadPathOf "to/file" := by
  refine ⟨rfl, by decide, by decide, by decide, by decide, rfl, rfl, by decide⟩

/-- C4:  `GitEngine::backup` dispatches on the existence of
`target/.git`.  In clone mode it returns `New(Some("at <hex>"))` with the
HEAD commit id; in fetch mode it returns `Unchanged(Some("at <hex>"))`
exactly when a pre-fetch HEAD existed and equals the post-fetch HEAD, and
`Updated(Some("<hex>"))` otherwise; a missing post-operation HEAD is a
user error. -/
theorem c4_git_backup_states (pre : Option String) (h : String) :
    gitBackup false pre (some h) = .ok (.new (some ("at " ++ h)))
    ∧ (gitBackup true pre (some h) = .ok (.unchanged (some ("at " ++ h)))
        ↔ pre = some h)
    ∧ (pre ≠ some h → gitBackup true pre (some h) = .ok (.updated (some h)))
    ∧ (∀ mode : Bool, gitBackup mode pre none = .error .headInvalid)
    ∧ GitEngineError.headInvalid.kind = .user := by
  refine ⟨rfl, ?_, ?_, ?_, rfl⟩
  · cases pre with
    | none => simp [gitBackup, gitFetch]
    | some oh =>
      by_cases hoh : oh = h
      · subst hoh; simp [gitBackup, gitFetch]
      · simp [gitBackup, gitFetch, hoh]
  · intro hne
    cases pre with
    | none => simp [gitBackup, gitFetch]
    | some oh =>
      have hoh : oh ≠ h := by
        intro hc; exact hne (by rw [hc])
      simp [gitBackup, gitFetch, hoh]
  · intro mode; cases mode <;> rfl

/-- Witness for C4 at concrete heads: a changed HEAD reports `Updated`,
and a fresh clone reports `New`. -/
theorem c4_git_backup_states_witness :
    gitBackup true (some "ab") (some "cd") = .ok (.updated (some "cd"))
    ∧ gitBackup false none (some "ab") = .ok (.new (some ("at " ++ "ab"))) :=
  ⟨(c4_git_backup_states (some "ab") "cd").2.2.1 (by decide),
   (c4_git_backup_states none "ab").1⟩

/-- C5:  `FilterContext::visit_unary` (the live evaluator in
`interpreter.rs`): for every operand expression and property provider,
`!e` evaluates to `Bool(true)` when `e`'s value is falsy and
`Bool(false)` when it is truthy — equivalently, to `Bool` of the negated
truthiness — and in particular `!null` evaluates to `Bool(true)`, a
truthy result. -/
theorem c5_visit_unary_negates_truthiness (get : String → FilterValue)
    (loc : Loc) (e : Expr) :
    Interp.visitExpr get (.unary (.not loc) e)
      = .bool (!(Interp.visitExpr get e).isTruthy)
    ∧ Interp.visitExpr get (.unary (.not loc) (.literal .null)) = .bool true
    ∧ (Interp.visitExpr get (.unary (.not loc) (.literal .null))).isTruthy = true := by
  refine ⟨?_, rfl, rfl⟩
  cases hv : (Interp.visitExpr get e).isTruthy <;>
    simp [Interp.visitExpr, hv]

/-- C6:  The claim (and the spec's §3 ordering rules) say the
comparison operators order `Null` as *equal* to `Null` — so `null <
null` and `null > null` are both false — and order tuples by length
first, then elementwise.  The code's `partial_cmp` does implement that
ordering, but the comparison operators do not call it: the hand-written
`lt`/`gt`/`le`/`ge` overrides return `true` for `(Null, Null)` and use a
pointwise-conjunction tuple rule, contradicting both the claim and the
code's own `partial_cmp` (Rust's `PartialOrd` contract requires
`lt`/`gt` to agree with `partial_cmp`).  Evaluated at the failing
inputs: `null < null` and `null > null` are `true` while `partial_cmp`
says `Equal`; `[1] < [0, 5]` is `false` while the length-first order
says `Less`; and the evaluator consequently makes the filter expression
`null < null` evaluate to `Bool(true)`. -/
theorem c6_comparison_overrides_diverge :
    FilterValue.fltB .null .null = true
    ∧ FilterValue.fgtB .null .null = true
    ∧ FilterValue.pcmp .null .null = some .eq
    ∧ FilterValue.fltB (.tuple [.number (.finite 1)])
        (.tuple [.number (.finite 0), .number (.finite 5)]) = false
    ∧ FilterValue.pcmp (.tuple [.number (.finite 1)])
        (.tuple [.number (.finite 0), .number (.finite 5)]) = some .lt
    ∧ Interp.visitExpr (fun _ => .null)
        (.binary (.literal .null) (.smallerThan ⟨1, 6⟩) (.literal .null))
      = .bool true := by
  refine ⟨rfl, rfl, rfl, by decide, by decide, rfl⟩

/-- C9:  The spec's validation rules reject "Gist source with an Org
source-kind" (the endpoint table marks `Org`/`Gist` invalid), but
`GitHubGistSource::validate` only rejects empty usernames and empty gist
ids: an `orgs/<name>` selector parses to `Org` and falls into the
`_ => Ok(())` arm, and `load` would then call the `orgs/<name>/gists`
endpoint the spec marks invalid.  Evaluated at the failing input
`from = "orgs/acme"`. -/
theorem c9_gist_validate_accepts_org :
    gistValidate "orgs/acme" = .ok ()
    ∧ parseRepoSourceKind "orgs/acme" = .ok (.org "acme")
    ∧ (GitHubRepoSourceKind.org "acme").apiEndpoint .gist = "orgs/acme/gists" :=
  ⟨rfl, rfl, rfl⟩

/-- C10:  `PartialEq for FilterValue` compares `Number`s by IEEE
`f64` equality, so a `Number` carrying NaN — obtainable through the
`From<f64>` conversion — is not equal to itself, and equality is not
reflexive in general; it is reflexive on every value containing no NaN
number. -/
theorem c10_feq_not_reflexive_on_nan :
    (∃ v : FilterValue, FilterValue.feq v v = false)
    ∧ ∀ v : FilterValue, v.noNaN = true → FilterValue.feq v v = true :=
  ⟨⟨FilterValue.fromF64 F64.nan, rfl⟩, feq_refl⟩

/-- Witness for C10: the NaN number is not equal to itself, while a
concrete NaN-free value (a string) is. -/
theorem c10_feq_not_reflexive_on_nan_witness :
    FilterValue.feq (FilterValue.fromF64 F64.nan) (FilterValue.fromF64 F64.nan) = false
    ∧ FilterValue.feq (.string "Ab") (.string "Ab") = true :=
  ⟨rfl, (c10_feq_not_reflexive_on_nan).2 (.string "Ab") rfl⟩

end GithubBackup
